import Mathlib

/-!
Verification of the batching proxy in `proxy.py` (class `OptimalBatchingProxy`
plus the FastAPI glue).  The proxy state is embedded shallowly:

* `pending_requests : Dict[str, PendingRequest]` becomes an association list
  keyed by the sequence string, with Python-dict overwrite semantics
  (`insertPending` replaces the value at an existing key in place).
* `request_queue : deque` becomes a `List String` whose head is the front of
  the deque (`popleft` = head, `appendleft` = cons, `append` = snoc,
  `remove` = remove first occurrence).
* `asyncio.Future` objects become numeric tokens handed out by a counter;
  `set_result` / `set_exception` append to a resolution log, and
  `future.done()` is membership of the token in that log.
* the backend call's result is a `BackendOutcome` parameter of the dispatch
  step (HTTP 200 with a results list, HTTP 429, another status, or a raised
  transport exception), so one loop iteration is a pure state transformer.
-/

/-- Result a future can be resolved with: `set_result` (a label) or
`set_exception` (an error message). -/
inductive FutureResult where
  | label (value : String)
  | error (msg : String)
deriving DecidableEq, Repr

/-- `PendingRequest` dataclass from `proxy.py`: sequence, `time.time()`
timestamp (modelled as a Nat tick), cached `len(sequence)`, and the future,
represented by its numeric token. -/
structure PendingRequest where
  sequence : String
  timestamp : Nat
  length : Nat
  future : Nat
deriving DecidableEq, Repr

/-- The mutable state of `OptimalBatchingProxy`, plus the future-resolution
log used to model `asyncio.Future` completion. -/
structure ProxyState where
  pending : List (String × PendingRequest)
  queue : List String
  running : Bool
  clientClosed : Bool
  nextFuture : Nat
  resolutions : List (Nat × FutureResult)
deriving DecidableEq, Repr

/-- Outcome of one backend call, as discriminated by `_process_batch`:
HTTP 200 with a parsed `results` list, HTTP 429, any other status code, or a
raised exception (timeout / transport failure), carried as a message. -/
inductive BackendOutcome where
  | labels (results : List String)
  | throttled
  | serverError (status : Nat)
  | transportError (msg : String)
deriving DecidableEq, Repr

/-- Observable effect of one dispatcher iteration: the new state, the body of
the outbound call if one was issued (`{"sequences": ...}`), and how long the
loop then sleeps (milliseconds; `asyncio.sleep(0.01)` = 10, `0.001` = 1). -/
structure StepResult where
  state : ProxyState
  sent : Option (List String)
  sleepMs : Nat
deriving DecidableEq, Repr

/-- Python dict lookup `pending_requests[s]` / `s in pending_requests`. -/
def lookupPending : List (String × PendingRequest) → String → Option PendingRequest
  | [], _ => none
  | (k, v) :: rest, s => if k = s then some v else lookupPending rest s

/-- Python dict assignment `pending_requests[s] = r`: overwrite in place if
the key exists, otherwise append. -/
def insertPending : List (String × PendingRequest) → String → PendingRequest → List (String × PendingRequest)
  | [], s, r => [(s, r)]
  | (k, v) :: rest, s, r => if k = s then (s, r) :: rest else (k, v) :: insertPending rest s r

/-- Python dict `pending_requests.pop(s)` (the state part). -/
def removePending : List (String × PendingRequest) → String → List (String × PendingRequest)
  | [], _ => []
  | (k, v) :: rest, s => if k = s then rest else (k, v) :: removePending rest s

/-- `future.done()`: the future token already appears in the resolution log. -/
def futureDone (st : ProxyState) (fid : Nat) : Bool :=
  st.resolutions.any (fun r => r.1 == fid)

/-- `deque.remove(s)` guarded by `if s in queue` — removes the first
occurrence, no-op when absent. -/
def qremove : List String → String → List String
  | [], _ => []
  | x :: xs, s => if x = s then xs else x :: qremove xs s

/-- `OptimalBatchingProxy.__init__`: empty registry and queue, running, open
client, no futures yet. -/
def initialState : ProxyState :=
  { pending := [], queue := [], running := true, clientClosed := false,
    nextFuture := 0, resolutions := [] }

/-- `add_request`: create a fresh future, build the `PendingRequest` record,
store it under the sequence key (overwriting any existing entry for the same
sequence), append the sequence to the queue, and return the future. -/
def add_request (st : ProxyState) (sequence : String) (now : Nat) : ProxyState × Nat :=
  let fid := st.nextFuture
  let pr : PendingRequest :=
    { sequence := sequence, timestamp := now, length := sequence.length, future := fid }
  ({ st with
      pending := insertPending st.pending sequence pr,
      queue := st.queue ++ [sequence],
      nextFuture := fid + 1 }, fid)

/-- The collection loop of `_create_optimal_batch`: pop every queue entry,
keep `(sequence, length)` for those whose record is still in the registry
(the put-back via `temp_queue` restores the queue exactly, so only the
collected list matters). -/
def collectAvailable (pending : List (String × PendingRequest)) : List String → List (String × Nat)
  | [] => []
  | s :: rest =>
    match lookupPending pending s with
    | some r => (s, r.length) :: collectAvailable pending rest
    | none => collectAvailable pending rest

/-- One step of the stable sort `available_requests.sort(key=lambda x: x[1])`:
insert an element in front of the first strictly larger key, after equal
keys already present. -/
def insortByLen (x : String × Nat) : List (String × Nat) → List (String × Nat)
  | [] => [x]
  | y :: ys => if x.2 ≤ y.2 then x :: y :: ys else y :: insortByLen x ys

/-- Stable sort by length, extensionally equal to Python's stable
`list.sort(key=lambda x: x[1])`. -/
def sortByLen : List (String × Nat) → List (String × Nat)
  | [] => []
  | x :: xs => insortByLen x (sortByLen xs)

/-- The removal loop of `_create_optimal_batch`: for each chosen entry,
remove its first occurrence from the queue (guarded by membership). -/
def removeChosen : List (String × Nat) → List String → List String
  | [], q => q
  | p :: rest, q => removeChosen rest (qremove q p.1)

/-- `_create_optimal_batch`: empty queue gives no batch; otherwise collect
the valid waiting requests in queue order, sort them stably by length, take
the first 5, remove them from the queue and return their sequences. -/
def create_optimal_batch (st : ProxyState) : List String × ProxyState :=
  if st.queue = [] then ([], st)
  else
    let available := collectAvailable st.pending st.queue
    if available = [] then ([], st)
    else
      let chosen := (sortByLen available).take 5
      (chosen.map Prod.fst, { st with queue := removeChosen chosen st.queue })

/-- The `sequences` list rebuilt at the top of `_process_batch`: batch
members whose record is still in the registry. -/
def sequencesOf (st : ProxyState) (batch : List String) : List String :=
  batch.filter (fun s => (lookupPending st.pending s).isSome)

/-- The HTTP 200 fan-out loop `for i, sequence in enumerate(sequences)`:
pop the record if present, and if `i < len(results)` and the future is not
done, resolve it with `results[i]`. -/
def fanOutLabels : ProxyState → Nat → List String → List String → ProxyState
  | acc, _, [], _ => acc
  | acc, i, s :: rest, results =>
    match lookupPending acc.pending s with
    | none => fanOutLabels acc (i + 1) rest results
    | some r =>
      let acc' :=
        match results[i]? with
        | some lab =>
          if futureDone acc r.future then
            { acc with pending := removePending acc.pending s }
          else
            { acc with pending := removePending acc.pending s,
                       resolutions := acc.resolutions ++ [(r.future, FutureResult.label lab)] }
        | none => { acc with pending := removePending acc.pending s }
      fanOutLabels acc' (i + 1) rest results

/-- The two error loops of `_process_batch` (non-200/429 status and the
`except` handler): pop each member still registered and, if its future is
not done, resolve it with the error message. -/
def errorFanOut : ProxyState → String → List String → ProxyState
  | acc, _, [] => acc
  | acc, msg, s :: rest =>
    match lookupPending acc.pending s with
    | none => errorFanOut acc msg rest
    | some r =>
      let acc' :=
        if futureDone acc r.future then
          { acc with pending := removePending acc.pending s }
        else
          { acc with pending := removePending acc.pending s,
                     resolutions := acc.resolutions ++ [(r.future, FutureResult.error msg)] }
      errorFanOut acc' msg rest

/-- The HTTP 429 loop: `appendleft` each member still registered, in
iteration order (so the front of the queue ends up in reversed batch order). -/
def throttleRequeue (pending : List (String × PendingRequest)) : List String → List String → List String
  | [], q => q
  | s :: rest, q =>
    throttleRequeue pending rest (if (lookupPending pending s).isSome then s :: q else q)

/-- `_process_batch`: rebuild `sequences`, issue the call, and handle the
four outcomes.  Returns the new state, the body sent (if any) and the
back-off sleep. -/
def process_batch (st : ProxyState) (batch : List String) (outcome : BackendOutcome) : StepResult :=
  if batch = [] then { state := st, sent := none, sleepMs := 0 }
  else
    let seqs := sequencesOf st batch
    if seqs = [] then { state := st, sent := none, sleepMs := 0 }
    else
      match outcome with
      | BackendOutcome.labels results =>
        { state := fanOutLabels st 0 seqs results, sent := some seqs, sleepMs := 0 }
      | BackendOutcome.throttled =>
        { state := { st with queue := throttleRequeue st.pending seqs st.queue },
          sent := some seqs, sleepMs := 10 }
      | BackendOutcome.serverError status =>
        { state := errorFanOut st ("Server error: " ++ toString status) seqs,
          sent := some seqs, sleepMs := 0 }
      | BackendOutcome.transportError msg =>
        { state := errorFanOut st msg batch, sent := some seqs, sleepMs := 0 }

/-- One iteration of `_batch_processor_loop`: exit when not running, sleep
1 ms when the queue is empty or the batch comes back empty, otherwise select
a batch and process it against the given backend outcome. -/
def batch_processor_iteration (st : ProxyState) (outcome : BackendOutcome) : StepResult :=
  if st.running = false then { state := st, sent := none, sleepMs := 0 }
  else if st.queue = [] then { state := st, sent := none, sleepMs := 1 }
  else
    let sel := create_optimal_batch st
    if sel.1 = [] then { state := sel.2, sent := none, sleepMs := 1 }
    else process_batch sel.2 sel.1 outcome

/-- `OptimalBatchingProxy.stop`: set `running = False`, cancel the loop task
and close the HTTP client.  Pending records and futures are not touched. -/
def stop (st : ProxyState) : ProxyState :=
  { st with running := false, clientClosed := true }

/-- Error message attached by the two terminal-error branches of
`_process_batch`: the non-200/429 branch formats the status code, the
`except` branch forwards the exception text. -/
def errMsg : BackendOutcome → Option String
  | BackendOutcome.serverError status => some ("Server error: " ++ toString status)
  | BackendOutcome.transportError msg => some msg
  | _ => none

/-- Well-formedness of the registry/future bookkeeping, maintained by the
real system: entries have pairwise distinct keys and pairwise distinct
future tokens, and no registered future is already resolved. -/
def WFpending (st : ProxyState) : Prop :=
  List.Pairwise (fun p q => p.1 ≠ q.1 ∧ p.2.future ≠ q.2.future) st.pending ∧
  ∀ p ∈ st.pending, futureDone st p.2.future = false

/-- The cached `length` field agrees with the key it is stored under
(always true of records built by `add_request`). -/
def WFlen (st : ProxyState) : Prop :=
  ∀ p ∈ st.pending, p.2.length = p.1.length

instance (st : ProxyState) : Decidable (WFpending st) := by
  unfold WFpending
  infer_instance

instance (st : ProxyState) : Decidable (WFlen st) := by
  unfold WFlen
  infer_instance

/-- Insertion step for the specification-side order: lexicographic on
(length, queue position). -/
def insortLex (x : (String × Nat) × Nat) : List ((String × Nat) × Nat) → List ((String × Nat) × Nat)
  | [] => [x]
  | y :: ys =>
    if x.1.2 < y.1.2 ∨ (x.1.2 = y.1.2 ∧ x.2 ≤ y.2) then x :: y :: ys else y :: insortLex x ys

/-- Sort by the lexicographic key (length, queue position). -/
def sortLex : List ((String × Nat) × Nat) → List ((String × Nat) × Nat)
  | [] => []
  | x :: xs => insortLex x (sortLex xs)

/-- Annotate a list with positions starting at `i`. -/
def withIdx : List α → Nat → List (α × Nat)
  | [], _ => []
  | x :: xs, i => (x, i) :: withIdx xs (i + 1)

/-- Selection policy stated independently of the implementation: order the
waiting `(sequence, length)` pairs by length ascending, ties broken by queue
position ascending, and take the first `min(5, count)`. -/
def selectorSpec (waiting : List ((String × Nat) × Nat)) : List String :=
  ((sortLex waiting).take 5).map (fun p => p.1.1)

/-- Two distinct registered requests with equal length 2: "cc" arrived at
tick 0, "bb" at tick 1. -/
def stTwoEqual : ProxyState :=
  ((add_request ((add_request initialState "cc" 0).1) "bb" 1).1)

/-- State reached from `stTwoEqual` after one dispatcher iteration that the
backend answers with HTTP 429. -/
def stAfterThrottle : ProxyState :=
  (batch_processor_iteration stTwoEqual BackendOutcome.throttled).state

/-- The same sequence "x" submitted twice while the first copy is pending:
the second `add_request` overwrites the registry record. -/
def stDup : ProxyState :=
  ((add_request ((add_request initialState "x" 0).1) "x" 1).1)

/-- Two registered requests "a" (future 0) and "bb" (future 1). -/
def stTwo : ProxyState :=
  { pending := [("a", { sequence := "a", timestamp := 0, length := 1, future := 0 }),
                ("bb", { sequence := "bb", timestamp := 1, length := 2, future := 1 })],
    queue := ["a", "bb"], running := true, clientClosed := false,
    nextFuture := 2, resolutions := [] }

/-- A queue holding the id "x" whose registry record is gone. -/
def stStale : ProxyState :=
  { pending := [], queue := ["x"], running := true, clientClosed := false,
    nextFuture := 0, resolutions := [] }

/-- Queue ["a", "b"] where only "b" still has a registry record. -/
def stStaleW : ProxyState :=
  { pending := [("b", { sequence := "b", timestamp := 5, length := 1, future := 3 })],
    queue := ["a", "b"], running := true, clientClosed := false,
    nextFuture := 4, resolutions := [] }

/-- A single registered request "x" with unresolved future 0. -/
def stOne : ProxyState :=
  { pending := [("x", { sequence := "x", timestamp := 0, length := 1, future := 0 })],
    queue := ["x"], running := true, clientClosed := false,
    nextFuture := 1, resolutions := [] }

/-! ### Association-list lemmas -/

theorem lookupPending_mem {p : List (String × PendingRequest)} {s : String} {r : PendingRequest}
    (h : lookupPending p s = some r) : (s, r) ∈ p := by
  induction p with
  | nil => simp [lookupPending] at h
  | cons kv rest ih =>
    obtain ⟨k, v⟩ := kv
    by_cases hk : k = s
    · subst hk
      simp [lookupPending] at h
      subst h
      exact List.mem_cons_self _ _
    · simp only [lookupPending, if_neg hk] at h
      exact List.mem_cons_of_mem _ (ih h)

theorem lookupPending_eq_none {p : List (String × PendingRequest)} {s : String}
    (h : ∀ q ∈ p, q.1 ≠ s) : lookupPending p s = none := by
  induction p with
  | nil => rfl
  | cons kv rest ih =>
    obtain ⟨k, v⟩ := kv
    have hk : k ≠ s := h (k, v) (List.mem_cons_self _ _)
    simp only [lookupPending, if_neg hk]
    exact ih (fun q hq => h q (List.mem_cons_of_mem _ hq))

theorem lookupPending_insert_self (p : List (String × PendingRequest)) (s : String) (r : PendingRequest) :
    lookupPending (insertPending p s r) s = some r := by
  induction p with
  | nil => simp [insertPending, lookupPending]
  | cons kv rest ih =>
    obtain ⟨k, v⟩ := kv
    by_cases hk : k = s
    · simp [insertPending, hk, lookupPending]
    · simp [insertPending, hk, lookupPending, ih]

theorem mem_insertPending {p : List (String × PendingRequest)} {s : String} {r : PendingRequest}
    {q : String × PendingRequest} (h : q ∈ insertPending p s r) : q = (s, r) ∨ q ∈ p := by
  induction p with
  | nil => simpa [insertPending] using h
  | cons kv rest ih =>
    obtain ⟨k, v⟩ := kv
    by_cases hk : k = s
    · simp only [insertPending, if_pos hk, List.mem_cons] at h
      rcases h with h | h
      · exact Or.inl h
      · exact Or.inr (List.mem_cons_of_mem _ h)
    · simp only [insertPending, if_neg hk, List.mem_cons] at h
      rcases h with h | h
      · exact Or.inr (by simp [h])
      · rcases ih h with h' | h'
        · exact Or.inl h'
        · exact Or.inr (List.mem_cons_of_mem _ h')

theorem removePending_sublist (p : List (String × PendingRequest)) (s : String) :
    List.Sublist (removePending p s) p := by
  induction p with
  | nil => simp [removePending]
  | cons kv rest ih =>
    obtain ⟨k, v⟩ := kv
    by_cases hk : k = s
    · simp only [removePending, if_pos hk]
      exact List.sublist_cons_self _ _
    · simp only [removePending, if_neg hk]
      exact List.Sublist.cons₂ _ ih

theorem lookupPending_removePending_ne (p : List (String × PendingRequest)) {s t : String}
    (h : t ≠ s) : lookupPending (removePending p s) t = lookupPending p t := by
  induction p with
  | nil => rfl
  | cons kv rest ih =>
    obtain ⟨k, v⟩ := kv
    by_cases hk : k = s
    · subst hk
      have hkt : k ≠ t := fun hh => h hh.symm
      simp [removePending, lookupPending, hkt]
    · by_cases hkt : k = t
      · simp [removePending, hk, lookupPending, hkt, h]
      · simp [removePending, hk, lookupPending, hkt, ih]

theorem lookupPending_removePending_self {p : List (String × PendingRequest)} {s : String}
    (hnd : List.Pairwise (fun a b => a.1 ≠ b.1) p) :
    lookupPending (removePending p s) s = none := by
  induction p with
  | nil => rfl
  | cons kv rest ih =>
    obtain ⟨k, v⟩ := kv
    rw [List.pairwise_cons] at hnd
    by_cases hk : k = s
    · subst hk
      simp only [removePending, if_pos rfl]
      exact lookupPending_eq_none (fun q hq => (hnd.1 q hq).symm)
    · simp only [removePending, if_neg hk, lookupPending, if_neg hk]
      exact ih hnd.2

theorem not_mem_removePending_self {p : List (String × PendingRequest)} {s : String}
    (hnd : List.Pairwise (fun a b => a.1 ≠ b.1) p) (r : PendingRequest) :
    (s, r) ∉ removePending p s := by
  intro hmem
  induction p with
  | nil => simp [removePending] at hmem
  | cons kv rest ih =>
    obtain ⟨k, v⟩ := kv
    rw [List.pairwise_cons] at hnd
    by_cases hk : k = s
    · subst hk
      simp only [removePending, if_pos rfl] at hmem
      exact (hnd.1 _ hmem) rfl
    · simp only [removePending, if_neg hk, List.mem_cons] at hmem
      rcases hmem with hmem | hmem
      · exact hk (congrArg Prod.fst hmem).symm
      · exact ih hnd.2 hmem

/-! ### Sorting lemmas -/

theorem insortByLen_perm (x : String × Nat) (l : List (String × Nat)) :
    List.Perm (insortByLen x l) (x :: l) := by
  induction l with
  | nil => simp [insortByLen]
  | cons y ys ih =>
    by_cases hxy : x.2 ≤ y.2
    · simp [insortByLen, hxy]
    · simp only [insortByLen, if_neg hxy]
      exact (ih.cons y).trans (List.Perm.swap x y ys)

theorem sortByLen_perm (l : List (String × Nat)) : List.Perm (sortByLen l) l := by
  induction l with
  | nil => simp [sortByLen]
  | cons x xs ih => exact (insortByLen_perm x (sortByLen xs)).trans (ih.cons x)

theorem mem_sortByLen {l : List (String × Nat)} {x : String × Nat} :
    x ∈ sortByLen l ↔ x ∈ l := (sortByLen_perm l).mem_iff

theorem insortByLen_pairwise {x : String × Nat} {l : List (String × Nat)}
    (hl : List.Pairwise (fun a b => a.2 ≤ b.2) l) :
    List.Pairwise (fun a b => a.2 ≤ b.2) (insortByLen x l) := by
  induction l with
  | nil => simp [insortByLen]
  | cons y ys ih =>
    rw [List.pairwise_cons] at hl
    by_cases hxy : x.2 ≤ y.2
    · simp only [insortByLen, if_pos hxy]
      rw [List.pairwise_cons]
      refine ⟨?_, List.pairwise_cons.mpr hl⟩
      intro z hz
      rcases List.mem_cons.mp hz with hz | hz
      · exact hz ▸ hxy
      · exact le_trans hxy (hl.1 z hz)
    · simp only [insortByLen, if_neg hxy]
      rw [List.pairwise_cons]
      refine ⟨?_, ih hl.2⟩
      intro z hz
      rcases List.mem_cons.mp ((insortByLen_perm x ys).mem_iff.mp hz) with hz | hz
      · exact hz ▸ le_of_not_le hxy
      · exact hl.1 z hz

theorem sortByLen_pairwise (l : List (String × Nat)) :
    List.Pairwise (fun a b => a.2 ≤ b.2) (sortByLen l) := by
  induction l with
  | nil => simp [sortByLen]
  | cons x xs ih => exact insortByLen_pairwise ih

theorem mem_insortLex {x y : (String × Nat) × Nat} {l : List ((String × Nat) × Nat)} :
    y ∈ insortLex x l ↔ y = x ∨ y ∈ l := by
  induction l with
  | nil => simp [insortLex]
  | cons z zs ih =>
    by_cases hc : x.1.2 < z.1.2 ∨ (x.1.2 = z.1.2 ∧ x.2 ≤ z.2)
    · simp [insortLex, hc]
    · simp [insortLex, hc, ih]
      tauto

theorem insortLex_map_fst {x : (String × Nat) × Nat} {l : List ((String × Nat) × Nat)}
    (h : ∀ y ∈ l, x.2 < y.2) :
    (insortLex x l).map Prod.fst = insortByLen x.1 (l.map Prod.fst) := by
  induction l with
  | nil => simp [insortLex, insortByLen]
  | cons y ys ih =>
    have hxy : x.2 < y.2 := h y (List.mem_cons_self _ _)
    have hcond : (x.1.2 < y.1.2 ∨ (x.1.2 = y.1.2 ∧ x.2 ≤ y.2)) ↔ x.1.2 ≤ y.1.2 := by
      constructor
      · rintro (hlt | ⟨heq, _⟩)
        · exact le_of_lt hlt
        · exact le_of_eq heq
      · intro hle
        rcases lt_or_eq_of_le hle with hlt | heq
        · exact Or.inl hlt
        · exact Or.inr ⟨heq, le_of_lt hxy⟩
    by_cases hc : x.1.2 ≤ y.1.2
    · simp only [insortLex, if_pos (hcond.mpr hc), insortByLen, List.map_cons, if_pos hc]
    · simp only [insortLex, if_neg (fun hh => hc (hcond.mp hh)), insortByLen, List.map_cons,
        if_neg hc]
      rw [ih (fun z hz => h z (List.mem_cons_of_mem _ hz))]

theorem mem_sortLex {l : List ((String × Nat) × Nat)} {x : (String × Nat) × Nat} :
    x ∈ sortLex l ↔ x ∈ l := by
  induction l with
  | nil => simp [sortLex]
  | cons y ys ih => simp [sortLex, mem_insortLex, ih]

theorem sortLex_map_fst {l : List ((String × Nat) × Nat)}
    (h : List.Pairwise (fun a b => a.2 < b.2) l) :
    (sortLex l).map Prod.fst = sortByLen (l.map Prod.fst) := by
  induction l with
  | nil => simp [sortLex, sortByLen]
  | cons x xs ih =>
    rw [List.pairwise_cons] at h
    have hmem : ∀ y ∈ sortLex xs, x.2 < y.2 := fun y hy => h.1 y (mem_sortLex.mp hy)
    simp only [sortLex, sortByLen, List.map_cons]
    rw [insortLex_map_fst hmem, ih h.2]

/-! ### Position annotation, collection, and queue-arithmetic lemmas -/

theorem withIdx_map_fst (l : List α) (i : Nat) : (withIdx l i).map Prod.fst = l := by
  induction l generalizing i with
  | nil => simp [withIdx]
  | cons x xs ih => simp [withIdx, ih]

theorem withIdx_idx_ge {l : List α} {i : Nat} {p : α × Nat} (h : p ∈ withIdx l i) : i ≤ p.2 := by
  induction l generalizing i with
  | nil => simp [withIdx] at h
  | cons x xs ih =>
    rcases List.mem_cons.mp h with h | h
    · simp [h]
    · exact le_trans (Nat.le_succ i) (ih h)

theorem withIdx_pairwise (l : List α) (i : Nat) :
    List.Pairwise (fun a b => a.2 < b.2) (withIdx l i) := by
  induction l generalizing i with
  | nil => simp [withIdx]
  | cons x xs ih =>
    simp only [withIdx]
    rw [List.pairwise_cons]
    exact ⟨fun p hp => lt_of_lt_of_le (Nat.lt_succ_self i) (withIdx_idx_ge hp), ih (i + 1)⟩

theorem collectAvailable_mem {pending : List (String × PendingRequest)} {q : List String}
    {s : String} {n : Nat} (h : (s, n) ∈ collectAvailable pending q) :
    ∃ r, lookupPending pending s = some r ∧ n = r.length := by
  induction q with
  | nil => simp [collectAvailable] at h
  | cons t rest ih =>
    simp only [collectAvailable] at h
    cases hl : lookupPending pending t with
    | none => rw [hl] at h; exact ih h
    | some r =>
      rw [hl] at h
      rcases List.mem_cons.mp h with h | h
      · obtain ⟨hs, hn⟩ := Prod.mk.injEq .. ▸ h
        exact ⟨r, by rw [hs]; exact hl, hn⟩
      · exact ih h

theorem collectAvailable_map_fst_sublist (pending : List (String × PendingRequest)) (q : List String) :
    List.Sublist ((collectAvailable pending q).map Prod.fst) q := by
  induction q with
  | nil => simp [collectAvailable]
  | cons t rest ih =>
    simp only [collectAvailable]
    cases hl : lookupPending pending t with
    | none => exact ih.trans (List.sublist_cons_self _ _)
    | some r =>
      simp only [List.map_cons]
      exact List.Sublist.cons₂ _ ih

theorem collectAvailable_append (pending : List (String × PendingRequest)) (q₁ q₂ : List String) :
    collectAvailable pending (q₁ ++ q₂) =
      collectAvailable pending q₁ ++ collectAvailable pending q₂ := by
  induction q₁ with
  | nil => simp [collectAvailable]
  | cons t rest ih =>
    simp only [List.cons_append, collectAvailable]
    cases hl : lookupPending pending t with
    | none => exact ih
    | some r => simp [ih]

theorem count_qremove_ne {q : List String} {s t : String} (h : s ≠ t) :
    (qremove q t).count s = q.count s := by
  induction q with
  | nil => rfl
  | cons x xs ih =>
    by_cases hx : x = t
    · subst hx
      simp [qremove, List.count_cons, h]
    · simp [qremove, hx, List.count_cons, ih]

theorem count_qremove_mem {q : List String} {t : String} (h : t ∈ q) :
    (qremove q t).count t + 1 = q.count t := by
  induction q with
  | nil => simp at h
  | cons x xs ih =>
    by_cases hx : x = t
    · subst hx
      simp [qremove, List.count_cons]
    · have ht : t ∈ xs := by
        rcases List.mem_cons.mp h with h | h
        · exact absurd h.symm hx
        · exact h
      simp only [qremove, if_neg hx, List.count_cons]
      have : (x == t) = false := by simpa using fun hh => hx hh
      rw [this]
      simpa using ih ht

theorem count_removeChosen {chosen : List (String × Nat)} {q : List String}
    (h : ∀ s, (chosen.map Prod.fst).count s ≤ q.count s) :
    ∀ s, (removeChosen chosen q).count s + (chosen.map Prod.fst).count s = q.count s := by
  induction chosen generalizing q with
  | nil => intro s; simp [removeChosen]
  | cons p rest ih =>
    have hp : p.1 ∈ q := by
      have hc := h p.1
      simp [List.count_cons] at hc
      exact List.count_pos_iff.mp (by omega)
    have hqm := count_qremove_mem hp
    have hrest : ∀ t, (rest.map Prod.fst).count t ≤ (qremove q p.1).count t := by
      intro t
      have hc := h t
      by_cases htp : t = p.1
      · subst htp
        simp [List.count_cons] at hc
        omega
      · rw [count_qremove_ne htp]
        have hne : (p.1 == t) = false := by simpa using Ne.symm htp
        simp only [List.map_cons, List.count_cons, hne] at hc
        simpa using hc
    intro s
    have h1 := ih hrest s
    simp only [removeChosen, List.map_cons, List.count_cons]
    by_cases hsp : s = p.1
    · subst hsp
      simp only [beq_self_eq_true, if_true]
      omega
    · have hne : (p.1 == s) = false := by simpa using Ne.symm hsp
      simp only [hne, Bool.false_eq_true, if_false]
      have h2 := count_qremove_ne hsp (q := q) (t := p.1)
      omega

/-! ### Batch-selection lemmas -/

theorem create_optimal_batch_fields (st : ProxyState) :
    (create_optimal_batch st).2.pending = st.pending ∧
    (create_optimal_batch st).2.resolutions = st.resolutions ∧
    (create_optimal_batch st).2.running = st.running ∧
    (create_optimal_batch st).2.clientClosed = st.clientClosed ∧
    (create_optimal_batch st).2.nextFuture = st.nextFuture := by
  unfold create_optimal_batch
  by_cases h1 : st.queue = []
  · simp [h1]
  · by_cases h2 : collectAvailable st.pending st.queue = [] <;> simp [h1, h2]

theorem create_optimal_batch_length_le (st : ProxyState) :
    (create_optimal_batch st).1.length ≤ 5 := by
  unfold create_optimal_batch
  by_cases h1 : st.queue = []
  · simp [h1]
  · by_cases h2 : collectAvailable st.pending st.queue = [] <;>
      simp [h1, h2, Nat.min_le_left]

theorem batch_all_valid {st : ProxyState} {s : String}
    (h : s ∈ (create_optimal_batch st).1) : (lookupPending st.pending s).isSome = true := by
  unfold create_optimal_batch at h
  by_cases h1 : st.queue = []
  · simp [h1] at h
  · by_cases h2 : collectAvailable st.pending st.queue = []
    · simp [h1, h2] at h
    · simp only [h1, h2, if_false, if_neg h1, if_neg h2, List.mem_map] at h
      obtain ⟨p, hp, hps⟩ := h
      have hp' : p ∈ sortByLen (collectAvailable st.pending st.queue) := List.take_subset _ _ hp
      have hp'' : (p.1, p.2) ∈ collectAvailable st.pending st.queue := by
        simpa using mem_sortByLen.mp hp'
      obtain ⟨r, hr, _⟩ := collectAvailable_mem hp''
      rw [← hps]
      simp [hr]

theorem batch_count_le (st : ProxyState) (s : String) :
    ((create_optimal_batch st).1).count s ≤ st.queue.count s := by
  unfold create_optimal_batch
  by_cases h1 : st.queue = []
  · simp [h1]
  · by_cases h2 : collectAvailable st.pending st.queue = []
    · simp [h1, h2]
    · simp only [h1, h2, if_neg h1, if_neg h2]
      calc (((sortByLen (collectAvailable st.pending st.queue)).take 5).map Prod.fst).count s
          = (((sortByLen (collectAvailable st.pending st.queue)).map Prod.fst).take 5).count s := by
            rw [List.map_take]
        _ ≤ (((sortByLen (collectAvailable st.pending st.queue)).map Prod.fst)).count s :=
            (List.take_sublist _ _).count_le s
        _ = ((collectAvailable st.pending st.queue).map Prod.fst).count s :=
            ((sortByLen_perm _).map Prod.fst).count_eq s
        _ ≤ st.queue.count s :=
            (collectAvailable_map_fst_sublist st.pending st.queue).count_le s

theorem create_optimal_batch_queue_count (st : ProxyState) (s : String) :
    (create_optimal_batch st).2.queue.count s + ((create_optimal_batch st).1).count s
      = st.queue.count s := by
  have hle := batch_count_le st
  revert hle
  unfold create_optimal_batch
  by_cases h1 : st.queue = []
  · simp [h1]
  · by_cases h2 : collectAvailable st.pending st.queue = []
    · simp [h1, h2]
    · simp only [h1, h2, if_neg h1, if_neg h2]
      intro hle
      have := @count_removeChosen ((sortByLen (collectAvailable st.pending st.queue)).take 5)
        st.queue (by intro t; simpa using hle t) s
      simpa using this

theorem create_optimal_batch_nil_state {st : ProxyState}
    (h : (create_optimal_batch st).1 = []) : (create_optimal_batch st).2 = st := by
  revert h
  unfold create_optimal_batch
  by_cases h1 : st.queue = []
  · simp [h1]
  · by_cases h2 : collectAvailable st.pending st.queue = []
    · simp [h1, h2]
    · simp only [h1, h2, if_false]
      intro h
      exfalso
      have hlen : (collectAvailable st.pending st.queue).length ≠ 0 := by
        simpa using h2
      have hsort : (sortByLen (collectAvailable st.pending st.queue)).length ≠ 0 := by
        rw [(sortByLen_perm _).length_eq]
        exact hlen
      have hne : (((sortByLen (collectAvailable st.pending st.queue)).take 5).map Prod.fst).length ≠ 0 := by
        simp only [List.length_map, List.length_take]
        omega
      rw [h] at hne
      exact hne rfl

/-! ### Dispatch-step lemmas -/

theorem throttleRequeue_eq {pending : List (String × PendingRequest)} {l : List String}
    (hv : ∀ s ∈ l, (lookupPending pending s).isSome = true) (q : List String) :
    throttleRequeue pending l q = l.reverse ++ q := by
  induction l generalizing q with
  | nil => simp [throttleRequeue]
  | cons s rest ih =>
    have hs : (lookupPending pending s).isSome = true := hv s (List.mem_cons_self _ _)
    simp only [throttleRequeue, hs, if_true, List.reverse_cons, List.append_assoc]
    rw [ih (fun t ht => hv t (List.mem_cons_of_mem _ ht))]
    simp

theorem sequencesOf_eq_of_valid {st : ProxyState} {batch : List String}
    (hv : ∀ s ∈ batch, (lookupPending st.pending s).isSome = true) :
    sequencesOf st batch = batch :=
  List.filter_eq_self.mpr (fun s hs => hv s hs)

theorem take_length_append (l r : List α) : (l ++ r).take l.length = l := by
  induction l with
  | nil => simp
  | cons x xs ih => simp [ih]

theorem process_batch_sent {st : ProxyState} {batch : List String} {outcome : BackendOutcome}
    {seqs : List String} (h : (process_batch st batch outcome).sent = some seqs) :
    seqs = sequencesOf st batch ∧ batch ≠ [] ∧ sequencesOf st batch ≠ [] := by
  unfold process_batch at h
  by_cases h1 : batch = []
  · simp [h1] at h
  · by_cases h2 : sequencesOf st batch = []
    · simp [h1, h2] at h
    · refine ⟨?_, h1, h2⟩
      simp only [if_neg h1, if_neg h2] at h
      cases outcome <;> simp_all

theorem batch_processor_iteration_sent {st : ProxyState} {outcome : BackendOutcome}
    {body : List String} (h : (batch_processor_iteration st outcome).sent = some body) :
    batch_processor_iteration st outcome
        = process_batch (create_optimal_batch st).2 (create_optimal_batch st).1 outcome ∧
      (create_optimal_batch st).1 ≠ [] := by
  unfold batch_processor_iteration at h ⊢
  by_cases hr : st.running = false
  · simp [hr] at h
  · by_cases hq : st.queue = []
    · simp [hr, hq] at h
    · by_cases hb : (create_optimal_batch st).1 = []
      · simp [hr, hq, hb] at h
      · simp [hr, hq, hb]

/-! ### Fan-out lemmas -/

theorem fanOutLabels_resolutions_mono {seqs : List String} :
    ∀ {acc : ProxyState} {i : Nat} {results : List String} {x : Nat × FutureResult},
      x ∈ acc.resolutions → x ∈ (fanOutLabels acc i seqs results).resolutions := by
  induction seqs with
  | nil => intro acc i results x hx; simpa [fanOutLabels] using hx
  | cons s rest ih =>
    intro acc i results x hx
    simp only [fanOutLabels]
    cases hl : lookupPending acc.pending s with
    | none => exact ih hx
    | some r =>
      cases hri : results[i]? with
      | none => exact ih hx
      | some lab =>
        by_cases hd : futureDone acc r.future
        · simp only [hd, if_true]
          exact ih hx
        · simp only [hd, Bool.false_eq_true, if_false]
          exact ih (by simp [hx])

theorem errorFanOut_resolutions_mono {seqs : List String} :
    ∀ {acc : ProxyState} {msg : String} {x : Nat × FutureResult},
      x ∈ acc.resolutions → x ∈ (errorFanOut acc msg seqs).resolutions := by
  induction seqs with
  | nil => intro acc msg x hx; simpa [errorFanOut] using hx
  | cons s rest ih =>
    intro acc msg x hx
    simp only [errorFanOut]
    cases hl : lookupPending acc.pending s with
    | none => exact ih hx
    | some r =>
      by_cases hd : futureDone acc r.future
      · simp only [hd, if_true]
        exact ih hx
      · simp only [hd, Bool.false_eq_true, if_false]
        exact ih (by simp [hx])

theorem errorFanOut_lookup_none {seqs : List String} :
    ∀ {acc : ProxyState} {msg : String} {t : String},
      lookupPending acc.pending t = none →
      lookupPending (errorFanOut acc msg seqs).pending t = none := by
  induction seqs with
  | nil => intro acc msg t ht; simpa [errorFanOut] using ht
  | cons s rest ih =>
    intro acc msg t ht
    simp only [errorFanOut]
    cases hl : lookupPending acc.pending s with
    | none => exact ih ht
    | some r =>
      have hts : t ≠ s := fun h => by rw [h, hl] at ht; cases ht
      by_cases hd : futureDone acc r.future
      · simp only [hd, if_true]
        exact ih (by rw [lookupPending_removePending_ne _ hts]; exact ht)
      · simp only [hd, Bool.false_eq_true, if_false]
        exact ih (by rw [lookupPending_removePending_ne _ hts]; exact ht)

theorem errorFanOut_lookup_not_mem {seqs : List String} :
    ∀ {acc : ProxyState} {msg : String} {t : String}, t ∉ seqs →
      lookupPending (errorFanOut acc msg seqs).pending t = lookupPending acc.pending t := by
  induction seqs with
  | nil => intro acc msg t _; simp [errorFanOut]
  | cons s rest ih =>
    intro acc msg t ht
    have hts : t ≠ s := fun h => ht (h ▸ List.mem_cons_self _ _)
    have htr : t ∉ rest := fun h => ht (List.mem_cons_of_mem _ h)
    simp only [errorFanOut]
    cases hl : lookupPending acc.pending s with
    | none => exact ih htr
    | some r =>
      by_cases hd : futureDone acc r.future
      · simp only [hd, if_true]
        rw [ih htr]
        exact lookupPending_removePending_ne _ hts
      · simp only [hd, Bool.false_eq_true, if_false]
        rw [ih htr]
        exact lookupPending_removePending_ne _ hts

/-! ### Registry well-formedness lemmas -/

theorem WFpending_keys {st : ProxyState} (h : WFpending st) :
    List.Pairwise (fun a b => a.1 ≠ b.1) st.pending :=
  h.1.imp (fun hab => hab.1)

theorem WF_distinct_futures {st : ProxyState} (h : WFpending st)
    {s₁ s₂ : String} {r₁ r₂ : PendingRequest}
    (h₁ : lookupPending st.pending s₁ = some r₁) (h₂ : lookupPending st.pending s₂ = some r₂)
    (hne : s₁ ≠ s₂) : r₁.future ≠ r₂.future := by
  have m₁ := lookupPending_mem h₁
  have m₂ := lookupPending_mem h₂
  have hsym : Symmetric (fun a b : String × PendingRequest => a.1 ≠ b.1 ∧ a.2.future ≠ b.2.future) :=
    fun a b hab => ⟨hab.1.symm, hab.2.symm⟩
  have hpq : (s₁, r₁) ≠ (s₂, r₂) := fun hh => hne (congrArg Prod.fst hh)
  exact (List.Pairwise.forall hsym h.1 m₁ m₂ hpq).2

theorem WF_not_done {st : ProxyState} (h : WFpending st) {s : String} {r : PendingRequest}
    (hl : lookupPending st.pending s = some r) : futureDone st r.future = false :=
  h.2 _ (lookupPending_mem hl)

theorem WF_after_resolve {acc : ProxyState} (h : WFpending acc) {s : String} {r : PendingRequest}
    (hl : lookupPending acc.pending s = some r) (res : FutureResult) :
    WFpending { acc with
      pending := removePending acc.pending s,
      resolutions := acc.resolutions ++ [(r.future, res)] } := by
  constructor
  · exact h.1.sublist (removePending_sublist _ _)
  · intro p hp
    have hmem : p ∈ acc.pending := (removePending_sublist _ _).subset hp
    have hold : futureDone acc p.2.future = false := h.2 p hmem
    have hne : r.future ≠ p.2.future := by
      have hpne : p ≠ (s, r) := by
        intro hh
        rw [hh] at hp
        exact not_mem_removePending_self (WFpending_keys h) r hp
      have hsym : Symmetric (fun a b : String × PendingRequest => a.1 ≠ b.1 ∧ a.2.future ≠ b.2.future) :=
        fun a b hab => ⟨hab.1.symm, hab.2.symm⟩
      exact (List.Pairwise.forall hsym h.1 (lookupPending_mem hl) hmem (fun hh => hpne hh.symm)).2
  -- futureDone of the updated state
    simp only [futureDone, List.any_append, List.any_cons, List.any_nil, Bool.or_false,
      Bool.or_eq_false_iff]
    constructor
    · simpa [futureDone] using hold
    · simpa using hne

/-! ### Positional delivery on a successful batch -/

theorem fanOut_delivers :
    ∀ (seqs : List String) (acc : ProxyState) (i : Nat) (results : List String),
      WFpending acc →
      seqs.Nodup →
      (∀ s ∈ seqs, (lookupPending acc.pending s).isSome = true) →
      ∀ (j : Nat) (hj : j < seqs.length) (hij : i + j < results.length),
        ∃ r, lookupPending acc.pending (seqs.get ⟨j, hj⟩) = some r ∧
          (r.future, FutureResult.label (results.get ⟨i + j, hij⟩))
            ∈ (fanOutLabels acc i seqs results).resolutions := by
  intro seqs
  induction seqs with
  | nil =>
    intro acc i results _ _ _ j hj hij
    exact absurd hj (by simp)
  | cons s rest ih =>
    intro acc i results hwf hnd hv j hj hij
    have hs : (lookupPending acc.pending s).isSome = true := hv s (List.mem_cons_self _ _)
    obtain ⟨r₀, hr₀⟩ : ∃ r, lookupPending acc.pending s = some r := by
      cases hl : lookupPending acc.pending s with
      | none => rw [hl] at hs; cases hs
      | some r => exact ⟨r, rfl⟩
    have hdone : futureDone acc r₀.future = false := WF_not_done hwf hr₀
    have hi : i < results.length := lt_of_le_of_lt (Nat.le_add_right i j) hij
    have hri : results[i]? = some (results.get ⟨i, hi⟩) := by
      rw [List.getElem?_eq_getElem hi]
      simp
    have hstep : fanOutLabels acc i (s :: rest) results
        = fanOutLabels
            { acc with
              pending := removePending acc.pending s,
              resolutions := acc.resolutions ++ [(r₀.future, FutureResult.label (results.get ⟨i, hi⟩))] }
            (i + 1) rest results := by
      simp only [fanOutLabels, hr₀, hri, hdone, Bool.false_eq_true, if_false]
    match j with
    | 0 =>
      refine ⟨r₀, by simpa using hr₀, ?_⟩
      rw [hstep]
      apply fanOutLabels_resolutions_mono
      exact List.mem_append_right _ (List.mem_singleton.mpr rfl)
    | j' + 1 =>
      have hnds := List.nodup_cons.mp hnd
      have hwf' : WFpending
          { acc with
            pending := removePending acc.pending s,
            resolutions := acc.resolutions ++ [(r₀.future, FutureResult.label (results.get ⟨i, hi⟩))] } :=
        WF_after_resolve hwf hr₀ _
      have hv' : ∀ t ∈ rest,
          (lookupPending (removePending acc.pending s) t).isSome = true := by
        intro t ht
        have hts : t ≠ s := by
          intro hh
          rw [hh] at ht
          exact hnds.1 ht
        rw [lookupPending_removePending_ne _ hts]
        exact hv t (List.mem_cons_of_mem _ ht)
      have hj' : j' < rest.length := Nat.lt_of_succ_lt_succ (by simpa using hj)
      have hij' : (i + 1) + j' < results.length := by omega
      obtain ⟨r, hr, hmem⟩ := ih _ (i + 1) results hwf' hnds.2 hv' j' hj' hij'
      refine ⟨r, ?_, ?_⟩
      · have hts : rest.get ⟨j', hj'⟩ ≠ s := by
          intro hh
          apply hnds.1
          rw [← hh]
          exact List.get_mem rest _ _
        have hcons : (s :: rest).get ⟨j' + 1, hj⟩ = rest.get ⟨j', hj'⟩ := rfl
        rw [hcons, ← lookupPending_removePending_ne acc.pending hts]
        exact hr
      · rw [hstep]
        have hfin : (⟨(i + 1) + j', hij'⟩ : Fin results.length) = ⟨i + (j' + 1), hij⟩ :=
          Fin.mk_eq_mk.mpr (by omega)
        rw [← hfin]
        exact hmem

/-! ### Error fan-out delivery -/

theorem errorFanOut_delivers :
    ∀ (seqs : List String) (acc : ProxyState) (msg : String),
      WFpending acc →
      ∀ s ∈ seqs, ∀ r, lookupPending acc.pending s = some r →
        (r.future, FutureResult.error msg) ∈ (errorFanOut acc msg seqs).resolutions ∧
        lookupPending (errorFanOut acc msg seqs).pending s = none := by
  intro seqs
  induction seqs with
  | nil =>
    intro acc msg _ s hs
    simp at hs
  | cons s₀ rest ih =>
    intro acc msg hwf s hs r hr
    cases hl : lookupPending acc.pending s₀ with
    | none =>
      have hstep : errorFanOut acc msg (s₀ :: rest) = errorFanOut acc msg rest := by
        simp only [errorFanOut, hl]
      rw [hstep]
      rcases List.mem_cons.mp hs with hss | hs'
      · rw [hss, hl] at hr; cases hr
      · exact ih acc msg hwf s hs' r hr
    | some r₀ =>
      have hdone : futureDone acc r₀.future = false := WF_not_done hwf hl
      have hstep : errorFanOut acc msg (s₀ :: rest)
          = errorFanOut
              { acc with
                pending := removePending acc.pending s₀,
                resolutions := acc.resolutions ++ [(r₀.future, FutureResult.error msg)] }
              msg rest := by
        simp only [errorFanOut, hl, hdone, Bool.false_eq_true, if_false]
      have hwf' : WFpending
          { acc with
            pending := removePending acc.pending s₀,
            resolutions := acc.resolutions ++ [(r₀.future, FutureResult.error msg)] } :=
        WF_after_resolve hwf hl _
      rcases eq_or_ne s s₀ with hss | hne
      · subst hss
        rw [hl] at hr
        injection hr with hr
        subst hr
        constructor
        · rw [hstep]
          apply errorFanOut_resolutions_mono
          exact List.mem_append_right _ (List.mem_singleton.mpr rfl)
        · rw [hstep]
          apply errorFanOut_lookup_none
          exact lookupPending_removePending_self (WFpending_keys hwf)
      · rcases List.mem_cons.mp hs with hss' | hs'
        · exact absurd hss' hne
        · have hr' : lookupPending (removePending acc.pending s₀) s = some r := by
            rw [lookupPending_removePending_ne _ hne]
            exact hr
          obtain ⟨h1, h2⟩ := ih _ msg hwf' s hs' r hr'
          rw [hstep]
          exact ⟨h1, h2⟩

theorem errorFanOut_done_preserved :
    ∀ (seqs : List String) (acc : ProxyState) (msg : String) (fid : Nat),
      WFpending acc →
      (∀ s ∈ seqs, ∀ r, lookupPending acc.pending s = some r → r.future ≠ fid) →
      futureDone (errorFanOut acc msg seqs) fid = futureDone acc fid := by
  intro seqs
  induction seqs with
  | nil =>
    intro acc msg fid _ _
    simp [errorFanOut]
  | cons s₀ rest ih =>
    intro acc msg fid hwf hfid
    cases hl : lookupPending acc.pending s₀ with
    | none =>
      have hstep : errorFanOut acc msg (s₀ :: rest) = errorFanOut acc msg rest := by
        simp only [errorFanOut, hl]
      rw [hstep]
      exact ih acc msg fid hwf (fun s hs => hfid s (List.mem_cons_of_mem _ hs))
    | some r₀ =>
      have hdone : futureDone acc r₀.future = false := WF_not_done hwf hl
      have hr₀fid : r₀.future ≠ fid := hfid s₀ (List.mem_cons_self _ _) r₀ hl
      have hstep : errorFanOut acc msg (s₀ :: rest)
          = errorFanOut
              { acc with
                pending := removePending acc.pending s₀,
                resolutions := acc.resolutions ++ [(r₀.future, FutureResult.error msg)] }
              msg rest := by
        simp only [errorFanOut, hl, hdone, Bool.false_eq_true, if_false]
      have hwf' : WFpending
          { acc with
            pending := removePending acc.pending s₀,
            resolutions := acc.resolutions ++ [(r₀.future, FutureResult.error msg)] } :=
        WF_after_resolve hwf hl _
      rw [hstep]
      rw [ih _ msg fid hwf' ?_]
      · simp only [futureDone, List.any_append, List.any_cons, List.any_nil, Bool.or_false]
        have : (r₀.future == fid) = false := by simpa using hr₀fid
        simp [this]
      · intro s hs r hr
        by_cases hss : s = s₀
        · rw [hss] at hr
          rw [show lookupPending (removePending acc.pending s₀) s₀ = none from
            lookupPending_removePending_self (WFpending_keys hwf)] at hr
          cases hr
        · rw [lookupPending_removePending_ne _ hss] at hr
          exact hfid s (List.mem_cons_of_mem _ hs) r hr

/-! ### Shape lemmas for the dispatch step -/

theorem fanOutLabels_queue {seqs : List String} :
    ∀ {acc : ProxyState} {i : Nat} {results : List String},
      (fanOutLabels acc i seqs results).queue = acc.queue := by
  induction seqs with
  | nil => intro acc i results; simp [fanOutLabels]
  | cons s rest ih =>
    intro acc i results
    simp only [fanOutLabels]
    cases hl : lookupPending acc.pending s with
    | none => exact ih
    | some r =>
      cases hri : results[i]? with
      | none => exact ih
      | some lab =>
        by_cases hd : futureDone acc r.future
        · simp only [hd, if_true]
          exact ih
        · simp only [hd, Bool.false_eq_true, if_false]
          exact ih

theorem errorFanOut_queue {seqs : List String} :
    ∀ {acc : ProxyState} {msg : String},
      (errorFanOut acc msg seqs).queue = acc.queue := by
  induction seqs with
  | nil => intro acc msg; simp [errorFanOut]
  | cons s rest ih =>
    intro acc msg
    simp only [errorFanOut]
    cases hl : lookupPending acc.pending s with
    | none => exact ih
    | some r =>
      by_cases hd : futureDone acc r.future
      · simp only [hd, if_true]
        exact ih
      · simp only [hd, Bool.false_eq_true, if_false]
        exact ih

theorem process_batch_throttled_eq {st : ProxyState} {batch : List String}
    (hb : batch ≠ [])
    (hv : ∀ s ∈ batch, (lookupPending st.pending s).isSome = true) :
    process_batch st batch BackendOutcome.throttled
      = { state := { st with queue := batch.reverse ++ st.queue },
          sent := some batch, sleepMs := 10 } := by
  have hseq : sequencesOf st batch = batch := sequencesOf_eq_of_valid hv
  unfold process_batch
  rw [if_neg hb]
  simp only [hseq, if_neg hb]
  rw [throttleRequeue_eq hv]

theorem sorted_head_min {l : List (String × Nat)} {h₀ : String × Nat} {t : List (String × Nat)}
    (hs : sortByLen l = h₀ :: t) : ∀ z ∈ l, h₀.2 ≤ z.2 := by
  intro z hz
  have hmem : z ∈ sortByLen l := mem_sortByLen.mpr hz
  rw [hs] at hmem
  rcases List.mem_cons.mp hmem with hzh | hzt
  · rw [hzh]
  · have hp := sortByLen_pairwise l
    rw [hs] at hp
    exact (List.pairwise_cons.mp hp).1 z hzt

theorem string_length_zero {s : String} (h : s.length = 0) : s = "" :=
  String.ext (List.eq_nil_of_length_eq_zero h)

/-! ### Claim C1 -/

/-- Claim C1 counterexample: after "cc" (tick 0) and "bb" (tick 1), both of
length 2, go through one throttled dispatch, the selector returns
["bb", "cc"] — the newer request first — although the claim requires ties
between equal lengths to be broken by arrival order (older first), which
would give ["cc", "bb"]. -/
theorem C1_counterexample_requeue_order :
    (create_optimal_batch stAfterThrottle).1 = ["bb", "cc"] ∧
    lookupPending stAfterThrottle.pending "cc"
      = some { sequence := "cc", timestamp := 0, length := 2, future := 0 } ∧
    lookupPending stAfterThrottle.pending "bb"
      = some { sequence := "bb", timestamp := 1, length := 2, future := 1 } := by
  decide

/-- Claim C1 (amended): the Batch Selector returns the first min(5, count)
valid waiting requests ordered by length ascending with ties broken by the
current queue position (which coincides with arrival order only until a
throttled re-queue reorders the queue); requests whose record is no longer
in the registry never appear in the batch (they are not candidates). -/
theorem C1_selector_queue_order (st : ProxyState) :
    (create_optimal_batch st).1
      = selectorSpec (withIdx (collectAvailable st.pending st.queue) 0) := by
  by_cases h1 : st.queue = []
  · simp [create_optimal_batch, h1, collectAvailable, withIdx, selectorSpec, sortLex]
  · by_cases h2 : collectAvailable st.pending st.queue = []
    · simp [create_optimal_batch, h1, h2, withIdx, selectorSpec, sortLex]
    · unfold create_optimal_batch selectorSpec
      rw [if_neg h1, if_neg h2]
      have hmap : (sortLex (withIdx (collectAvailable st.pending st.queue) 0)).map Prod.fst
          = sortByLen (collectAvailable st.pending st.queue) := by
        rw [sortLex_map_fst (withIdx_pairwise _ 0), withIdx_map_fst]
      show ((sortByLen (collectAvailable st.pending st.queue)).take 5).map Prod.fst
          = ((sortLex (withIdx (collectAvailable st.pending st.queue) 0)).take 5).map
              (fun p => p.1.1)
      rw [← hmap, ← List.map_take, List.map_map]
      rfl

/-! ### Claim C3 -/

/-- Claim C3: a dispatcher iteration whose backend outcome is Throttled
resolves no completion, removes no registry record, and leaves the multiset
of waiting requests (registry contents and queued ids) exactly as it was
before the dispatch. -/
theorem C3_throttle_preserves (st : ProxyState) :
    (batch_processor_iteration st BackendOutcome.throttled).state.pending = st.pending ∧
    (batch_processor_iteration st BackendOutcome.throttled).state.resolutions = st.resolutions ∧
    ∀ s, (batch_processor_iteration st BackendOutcome.throttled).state.queue.count s
      = st.queue.count s := by
  unfold batch_processor_iteration
  by_cases hr : st.running = false
  · simp [hr]
  · by_cases hq : st.queue = []
    · simp [hr, hq]
    · by_cases hb : (create_optimal_batch st).1 = []
      · simp [hr, hq, hb, create_optimal_batch_nil_state hb]
      · simp only [hr, hq, hb, if_neg hr, if_neg hq, if_neg hb]
        have hfields := create_optimal_batch_fields st
        have hv : ∀ s ∈ (create_optimal_batch st).1,
            (lookupPending (create_optimal_batch st).2.pending s).isSome = true := by
          rw [hfields.1]
          exact fun s hs => batch_all_valid hs
        rw [process_batch_throttled_eq hb hv]
        refine ⟨hfields.1, hfields.2.1, ?_⟩
        intro s
        have hcount := create_optimal_batch_queue_count st s
        show ((create_optimal_batch st).1.reverse ++ (create_optimal_batch st).2.queue).count s
          = st.queue.count s
        rw [List.count_append, List.count_reverse]
        omega

/-! ### Claim C4 -/

/-- Claim C4 counterexample: for the throttled batch ["a", "bb"], the code
pushes the ids back with `appendleft` in iteration order, so the queue
afterwards starts ["bb", "a"] — the reverse of the original batch order
required by the claim. -/
theorem C4_counterexample_reversed :
    (batch_processor_iteration stTwo BackendOutcome.throttled).sent = some ["a", "bb"] ∧
    (batch_processor_iteration stTwo BackendOutcome.throttled).state.queue = ["bb", "a"] := by
  decide

/-- Claim C4 (amended): on a Throttled outcome the batch's ids are pushed
back onto the front of the Arrival Queue in reversed batch order (the queue
afterwards starts with the batch members newest-position first), and the
dispatcher then sleeps for the 10 ms throttle backoff. -/
theorem C4_throttle_requeue_reversed {st : ProxyState} {seqs : List String}
    (h : (batch_processor_iteration st BackendOutcome.throttled).sent = some seqs) :
    (batch_processor_iteration st BackendOutcome.throttled).state.queue.take seqs.length
        = seqs.reverse ∧
    (batch_processor_iteration st BackendOutcome.throttled).sleepMs = 10 := by
  obtain ⟨heq, hb⟩ := batch_processor_iteration_sent h
  rw [heq] at h ⊢
  obtain ⟨hseq, _, hne⟩ := process_batch_sent h
  have hfields := create_optimal_batch_fields st
  have hv : ∀ s ∈ (create_optimal_batch st).1,
      (lookupPending (create_optimal_batch st).2.pending s).isSome = true := by
    rw [hfields.1]
    exact fun s hs => batch_all_valid hs
  have hsb : seqs = (create_optimal_batch st).1 := by
    rw [hseq, sequencesOf_eq_of_valid hv]
  subst hsb
  rw [process_batch_throttled_eq hb hv]
  constructor
  · show ((create_optimal_batch st).1.reverse ++ (create_optimal_batch st).2.queue).take
        (create_optimal_batch st).1.length = (create_optimal_batch st).1.reverse
    rw [show (create_optimal_batch st).1.length = (create_optimal_batch st).1.reverse.length from
      (List.length_reverse _).symm]
    exact take_length_append _ _
  · rfl

/-- Claim C4 witness: the amended theorem applied to the concrete throttled
dispatch of ["a", "bb"] from `stTwo`. -/
theorem C4_throttle_requeue_reversed_witness :
    (batch_processor_iteration stTwo BackendOutcome.throttled).state.queue.take 2
        = ["bb", "a"] ∧
    (batch_processor_iteration stTwo BackendOutcome.throttled).sleepMs = 10 := by
  have h := @C4_throttle_requeue_reversed stTwo ["a", "bb"] (by decide)
  exact ⟨h.1, h.2⟩

/-! ### Claim C6 -/

/-- Claim C6: every outbound call issued by a dispatcher iteration carries a
sequences list of size at least 1 and at most 5. -/
theorem C6_batch_size_bounds {st : ProxyState} {outcome : BackendOutcome} {body : List String}
    (h : (batch_processor_iteration st outcome).sent = some body) :
    1 ≤ body.length ∧ body.length ≤ 5 := by
  obtain ⟨heq, hb⟩ := batch_processor_iteration_sent h
  rw [heq] at h
  obtain ⟨hseq, _, hne⟩ := process_batch_sent h
  constructor
  · rw [hseq]
    exact List.length_pos.mpr hne
  · rw [hseq]
    calc (sequencesOf (create_optimal_batch st).2 (create_optimal_batch st).1).length
        ≤ (create_optimal_batch st).1.length := List.length_filter_le _ _
      _ ≤ 5 := create_optimal_batch_length_le st

/-- Claim C6 witness: the bound applied to the concrete dispatch of
["a", "bb"] from `stTwo`. -/
theorem C6_batch_size_bounds_witness :
    1 ≤ (["a", "bb"] : List String).length ∧ (["a", "bb"] : List String).length ≤ 5 :=
  @C6_batch_size_bounds stTwo BackendOutcome.throttled ["a", "bb"] (by decide)

/-! ### Claim C9 -/

/-- Claim C9 counterexample: stopping the proxy with the record for "x"
still registered leaves that record in the registry and adds no resolution
at all — in particular no Cancelled error is delivered, contrary to the
claim. -/
theorem C9_counterexample_stop_leaves_pending :
    (stop stOne).pending
      = [("x", { sequence := "x", timestamp := 0, length := 1, future := 0 })] ∧
    (stop stOne).resolutions = [] := by
  decide

/-- Claim C9 (amended): after the stop signal the dispatcher dispatches no
further batches and the backend client is closed, but the records still in
the registry are left untouched — their completions are never resolved,
with a Cancelled error or otherwise. -/
theorem C9_stop_behavior (st : ProxyState) (outcome : BackendOutcome) :
    (stop st).running = false ∧
    (stop st).clientClosed = true ∧
    (stop st).pending = st.pending ∧
    (stop st).resolutions = st.resolutions ∧
    (batch_processor_iteration (stop st) outcome).sent = none := by
  refine ⟨rfl, rfl, rfl, rfl, ?_⟩
  unfold batch_processor_iteration
  simp [stop]

/-! ### Queue-membership helpers for the dispatch step -/

theorem mem_throttleRequeue {pending : List (String × PendingRequest)} {l q : List String}
    {s : String} (hs : s ∈ q) : s ∈ throttleRequeue pending l q := by
  induction l generalizing q with
  | nil => simpa [throttleRequeue] using hs
  | cons t rest ih =>
    simp only [throttleRequeue]
    by_cases ht : (lookupPending pending t).isSome = true
    · simp only [ht, if_true]
      exact ih (List.mem_cons_of_mem _ hs)
    · simp only [ht, Bool.false_eq_true, if_false]
      exact ih hs

theorem process_batch_queue_mem {st : ProxyState} {batch : List String}
    {outcome : BackendOutcome} {s : String} (hs : s ∈ st.queue) :
    s ∈ (process_batch st batch outcome).state.queue := by
  unfold process_batch
  by_cases hb : batch = []
  · simp only [hb, if_pos rfl]
    exact hs
  · by_cases hsq : sequencesOf st batch = []
    · simp only [if_neg hb, hsq, if_pos rfl]
      exact hs
    · simp only [if_neg hb, if_neg hsq]
      cases outcome with
      | labels results =>
        show s ∈ (fanOutLabels st 0 (sequencesOf st batch) results).queue
        rw [fanOutLabels_queue]
        exact hs
      | throttled =>
        exact mem_throttleRequeue hs
      | serverError status =>
        show s ∈ (errorFanOut st _ (sequencesOf st batch)).queue
        rw [errorFanOut_queue]
        exact hs
      | transportError msg =>
        show s ∈ (errorFanOut st msg batch).queue
        rw [errorFanOut_queue]
        exact hs

/-! ### Claim C2 -/

/-- Claim C2 counterexample: the reachable batch ["x", "x"] (the same
sequence submitted twice) is sent with two results available, yet the only
resolution delivered is result 0 to future 1; result 1 ("not code") reaches
no completion, so result i is not delivered to the i-th request for i = 1. -/
theorem C2_counterexample_duplicate_batch :
    (batch_processor_iteration stDup (BackendOutcome.labels ["code", "not code"])).sent
        = some ["x", "x"] ∧
    (batch_processor_iteration stDup
        (BackendOutcome.labels ["code", "not code"])).state.resolutions
      = [(1, FutureResult.label "code")] := by
  decide

/-- Claim C2 (amended): for a batch whose sent sequences are pairwise
distinct, receiving a Labels outcome with at least as many results as
sequences, the i-th result is delivered to the completion of the i-th
request as sent, for every position i; when a sequence occupies several
positions only its first occurrence receives a result. -/
theorem C2_positional_fanout {st : ProxyState} {batch results : List String}
    (hwf : WFpending st) (hnd : (sequencesOf st batch).Nodup)
    (j : Nat) (hj : j < (sequencesOf st batch).length) (hj2 : j < results.length) :
    ∃ r, lookupPending st.pending ((sequencesOf st batch).get ⟨j, hj⟩) = some r ∧
      (r.future, FutureResult.label (results.get ⟨j, hj2⟩))
        ∈ (process_batch st batch (BackendOutcome.labels results)).state.resolutions := by
  by_cases hb : batch = []
  · rw [hb] at hj
    simp [sequencesOf] at hj
  · by_cases hs : sequencesOf st batch = []
    · rw [hs] at hj
      simp at hj
    · have hred : (process_batch st batch (BackendOutcome.labels results)).state
          = fanOutLabels st 0 (sequencesOf st batch) results := by
        unfold process_batch
        rw [if_neg hb]
        simp only [if_neg hs]
      rw [hred]
      have hv : ∀ s ∈ sequencesOf st batch, (lookupPending st.pending s).isSome = true :=
        fun s hsm => (List.mem_filter.mp hsm).2
      obtain ⟨r, h1, h2⟩ :=
        fanOut_delivers (sequencesOf st batch) st 0 results hwf hnd hv j hj
          (by simpa using hj2)
      refine ⟨r, h1, ?_⟩
      simpa using h2

/-- Claim C2 witness: positional delivery on the concrete distinct batch
["a", "bb"] with results ["code", "not code"] at position 1. -/
theorem C2_positional_fanout_witness :
    ∃ r, lookupPending stTwo.pending "bb" = some r ∧
      (r.future, FutureResult.label "not code")
        ∈ (process_batch stTwo ["a", "bb"]
            (BackendOutcome.labels ["code", "not code"])).state.resolutions := by
  have h := @C2_positional_fanout stTwo ["a", "bb"] ["code", "not code"]
      (by decide) (by decide) 1 (by decide) (by decide)
  exact h

/-! ### Claim C5 -/

/-- Claim C5 (code bug): submitting "x" twice creates futures 0 and 1, but
the second `add_request` overwrites the registry record keyed by the
sequence; after one successful dispatch the registry is empty and only
future 1 was resolved — future 0 (the first submit's completion) is never
resolved and can never be, contradicting the claim that both completions
are eventually resolved. -/
theorem C5_duplicate_submit_loses_first :
    (add_request initialState "x" 0).2 = 0 ∧
    (add_request ((add_request initialState "x" 0).1) "x" 1).2 = 1 ∧
    (batch_processor_iteration stDup
        (BackendOutcome.labels ["code", "not code"])).state.pending = [] ∧
    (batch_processor_iteration stDup
        (BackendOutcome.labels ["code", "not code"])).state.resolutions
      = [(1, FutureResult.label "code")] := by
  decide

/-! ### Claim C7 -/

/-- Claim C7 counterexample: the id "x" sits in the Arrival Queue with no
registry record, and after the dispatcher finishes a full iteration it is
still there — stale ids are put back, not purged, contradicting the claim
that they do not remain once the iteration finishes. -/
theorem C7_counterexample_stale_id_persists :
    lookupPending stStale.pending "x" = none ∧
    (batch_processor_iteration stStale BackendOutcome.throttled).state.queue = ["x"] := by
  decide

/-- Claim C7 (amended): an id in the Arrival Queue whose record is gone from
the Pending Registry is skipped by selection — it never appears in the
returned batch — but it is not purged: it is still in the queue after the
dispatcher iteration completes. -/
theorem C7_stale_ids_skipped_but_kept {st : ProxyState} {s : String} (outcome : BackendOutcome)
    (hq : s ∈ st.queue) (hnone : lookupPending st.pending s = none) :
    s ∉ (create_optimal_batch st).1 ∧
    s ∈ (batch_processor_iteration st outcome).state.queue := by
  have hnb : s ∉ (create_optimal_batch st).1 := by
    intro hmem
    have hv := batch_all_valid hmem
    rw [hnone] at hv
    cases hv
  refine ⟨hnb, ?_⟩
  unfold batch_processor_iteration
  by_cases hr : st.running = false
  · simp only [hr, if_pos rfl]
    exact hq
  · by_cases hqe : st.queue = []
    · rw [hqe] at hq
      cases hq
    · by_cases hb : (create_optimal_batch st).1 = []
      · simp only [if_neg hr, if_neg hqe, hb, if_pos rfl]
        rw [create_optimal_batch_nil_state hb]
        exact hq
      · simp only [if_neg hr, if_neg hqe, if_neg hb]
        have hcnt := create_optimal_batch_queue_count st s
        have hbz : ((create_optimal_batch st).1).count s = 0 := List.count_eq_zero.mpr hnb
        have hqpos : 0 < st.queue.count s := List.count_pos_iff.mpr hq
        have hmem' : s ∈ (create_optimal_batch st).2.queue := List.count_pos_iff.mp (by omega)
        exact process_batch_queue_mem hmem'

/-- Claim C7 witness: the amended statement at the concrete state whose
queue holds the stale id "a" and the live id "b". -/
theorem C7_stale_ids_witness :
    "a" ∉ (create_optimal_batch stStaleW).1 ∧
    "a" ∈ (batch_processor_iteration stStaleW BackendOutcome.throttled).state.queue :=
  C7_stale_ids_skipped_but_kept BackendOutcome.throttled (by decide) (by decide)

/-! ### Claim C8 -/

/-- Claim C8: on a TransportError outcome (any non-200, non-429 status, or a
raised transport exception), every batch member still registered has its
completion fulfilled with an error carrying the failure reason and is
removed from the registry, while ids outside the batch keep their registry
entry and their futures' resolution status unchanged. -/
theorem C8_transport_error_fanout {st : ProxyState} {batch : List String}
    {outcome : BackendOutcome} {msg : String}
    (hwf : WFpending st) (hmsg : errMsg outcome = some msg) :
    (∀ s ∈ sequencesOf st batch, ∃ r, lookupPending st.pending s = some r ∧
        (r.future, FutureResult.error msg)
          ∈ (process_batch st batch outcome).state.resolutions ∧
        lookupPending (process_batch st batch outcome).state.pending s = none) ∧
    (∀ t, t ∉ batch →
        lookupPending (process_batch st batch outcome).state.pending t
          = lookupPending st.pending t) ∧
    (∀ fid, (∀ s ∈ batch, ∀ r, lookupPending st.pending s = some r → r.future ≠ fid) →
        futureDone (process_batch st batch outcome).state fid = futureDone st fid) := by
  by_cases hb : batch = []
  · rw [hb]
    unfold process_batch
    simp [sequencesOf]
  · by_cases hs : sequencesOf st batch = []
    · unfold process_batch
      simp [hb, hs]
    · cases outcome with
      | labels results => simp [errMsg] at hmsg
      | throttled => simp [errMsg] at hmsg
      | serverError status =>
        simp only [errMsg, Option.some.injEq] at hmsg
        have hred : process_batch st batch (BackendOutcome.serverError status)
            = { state := errorFanOut st ("Server error: " ++ toString status) (sequencesOf st batch),
                sent := some (sequencesOf st batch), sleepMs := 0 } := by
          unfold process_batch
          rw [if_neg hb]
          simp only [if_neg hs]
        rw [hred, ← hmsg]
        refine ⟨?_, ?_, ?_⟩
        · intro s hsm
          have hv : (lookupPending st.pending s).isSome = true := (List.mem_filter.mp hsm).2
          obtain ⟨r, hr⟩ := Option.isSome_iff_exists.mp hv
          obtain ⟨h1, h2⟩ := errorFanOut_delivers (sequencesOf st batch) st _ hwf s hsm r hr
          exact ⟨r, hr, h1, h2⟩
        · intro t ht
          apply errorFanOut_lookup_not_mem
          intro hmem
          exact ht (List.mem_of_mem_filter hmem)
        · intro fid hfid
          apply errorFanOut_done_preserved _ st _ fid hwf
          intro s hsm r hr
          exact hfid s (List.mem_of_mem_filter hsm) r hr
      | transportError m =>
        simp only [errMsg, Option.some.injEq] at hmsg
        have hred : process_batch st batch (BackendOutcome.transportError m)
            = { state := errorFanOut st m batch,
                sent := some (sequencesOf st batch), sleepMs := 0 } := by
          unfold process_batch
          rw [if_neg hb]
          simp only [if_neg hs]
        rw [hred, ← hmsg]
        refine ⟨?_, ?_, ?_⟩
        · intro s hsm
          have hv : (lookupPending st.pending s).isSome = true := (List.mem_filter.mp hsm).2
          obtain ⟨r, hr⟩ := Option.isSome_iff_exists.mp hv
          obtain ⟨h1, h2⟩ :=
            errorFanOut_delivers batch st m hwf s (List.mem_of_mem_filter hsm) r hr
          exact ⟨r, hr, h1, h2⟩
        · intro t ht
          exact errorFanOut_lookup_not_mem ht
        · intro fid hfid
          exact errorFanOut_done_preserved batch st m fid hwf hfid

/-- Claim C8 witness: the transport-error fan-out applied to the concrete
batch ["a", "bb"] from `stTwo` failing with reason "boom", at member "a". -/
theorem C8_transport_error_fanout_witness :
    ∃ r, lookupPending stTwo.pending "a" = some r ∧
      (r.future, FutureResult.error "boom")
        ∈ (process_batch stTwo ["a", "bb"]
            (BackendOutcome.transportError "boom")).state.resolutions ∧
      lookupPending (process_batch stTwo ["a", "bb"]
          (BackendOutcome.transportError "boom")).state.pending "a" = none := by
  have h := (@C8_transport_error_fanout stTwo ["a", "bb"]
      (BackendOutcome.transportError "boom") "boom"
      (by decide) rfl).1 "a" (by decide)
  exact h

/-! ### Claim C10 -/

/-- Claim C10: the empty sequence is accepted: `add_request` applies no
validation, registers a record of length 0 under the key "", and that
record is eligible for batching — being the unique shortest it is placed at
the head of the next selected batch, ahead of every non-empty waiter. -/
theorem C10_empty_sequence_accepted (st : ProxyState) (t : Nat) (hlen : WFlen st) :
    lookupPending ((add_request st "" t).1).pending ""
      = some { sequence := "", timestamp := t, length := 0, future := st.nextFuture } ∧
    (create_optimal_batch ((add_request st "" t).1)).1.head? = some "" := by
  have hins : lookupPending ((add_request st "" t).1).pending ""
      = some { sequence := "", timestamp := t, length := 0, future := st.nextFuture } := by
    show lookupPending (insertPending st.pending "" _) "" = _
    rw [lookupPending_insert_self]
    rfl
  refine ⟨hins, ?_⟩
  have hlen' : WFlen ((add_request st "" t).1) := by
    intro p hp
    rcases mem_insertPending hp with hpe | hpm
    · rw [hpe]
    · exact hlen p hpm
  have hqueue : ((add_request st "" t).1).queue = st.queue ++ [""] := rfl
  have hqne : ((add_request st "" t).1).queue ≠ [] := by
    rw [hqueue]
    simp
  have havail : collectAvailable ((add_request st "" t).1).pending ((add_request st "" t).1).queue
      = collectAvailable ((add_request st "" t).1).pending st.queue ++ [("", 0)] := by
    rw [hqueue, collectAvailable_append]
    congr 1
    simp [collectAvailable, hins]
  have hmem0 : ("", 0) ∈ collectAvailable ((add_request st "" t).1).pending
      ((add_request st "" t).1).queue := by
    rw [havail]
    exact List.mem_append_right _ (List.mem_singleton.mpr rfl)
  have hane : collectAvailable ((add_request st "" t).1).pending
      ((add_request st "" t).1).queue ≠ [] := by
    intro hh
    rw [hh] at hmem0
    cases hmem0
  obtain ⟨h₀, tl, hsort⟩ : ∃ h₀ tl,
      sortByLen (collectAvailable ((add_request st "" t).1).pending
        ((add_request st "" t).1).queue) = h₀ :: tl := by
    cases hsry : sortByLen (collectAvailable ((add_request st "" t).1).pending
        ((add_request st "" t).1).queue) with
    | nil =>
      exfalso
      have hlen0 := (sortByLen_perm (collectAvailable ((add_request st "" t).1).pending
        ((add_request st "" t).1).queue)).length_eq
      rw [hsry] at hlen0
      exact hane (List.length_eq_zero.mp hlen0.symm)
    | cons a b => exact ⟨a, b, rfl⟩
  have hmin : h₀.2 ≤ 0 := sorted_head_min hsort ("", 0) hmem0
  have hzero : h₀.2 = 0 := Nat.le_zero.mp hmin
  have hh₀ : h₀ ∈ collectAvailable ((add_request st "" t).1).pending
      ((add_request st "" t).1).queue := by
    apply mem_sortByLen.mp
    rw [hsort]
    exact List.mem_cons_self _ _
  obtain ⟨r, hr, hrlen⟩ := collectAvailable_mem
    (show (h₀.1, h₀.2) ∈ collectAvailable ((add_request st "" t).1).pending
        ((add_request st "" t).1).queue by simpa using hh₀)
  have hrlen' : r.length = h₀.1.length := hlen' (h₀.1, r) (lookupPending_mem hr)
  have hempty : h₀.1 = "" := string_length_zero (by omega)
  unfold create_optimal_batch
  rw [if_neg hqne]
  simp only [hane, if_false, hsort]
  simp [hempty]

/-- Claim C10 witness: submitting "" after "x" (length 1): the empty
sequence is registered with length 0 and heads the next batch. -/
theorem C10_empty_sequence_accepted_witness :
    lookupPending ((add_request stOne "" 7).1).pending ""
      = some { sequence := "", timestamp := 7, length := 0, future := 1 } ∧
    (create_optimal_batch ((add_request stOne "" 7).1)).1.head? = some "" :=
  C10_empty_sequence_accepted stOne 7 (by decide)
